import Mathlib

/-!
Verification development for the OpenStack release summarizer (`count.py`).

The program is a sequential fetch-aggregate-sort-format pipeline:
it fetches merged Gerrit changes for each configured repository, tallies
per-contributor commit and review-comment counts plus global line totals,
and prints a leaderboard (reviews or commits mode) or a summary.

The embedding below follows the source closely:

* Python `str` values are modelled as Lean `String`; the two string
  operations the source uses on data (`r.text[4:]` and
  `name.replace(',', ' ')`) are embedded at the `List Char` level
  (`pySliceFrom`, `pyReplaceCommaSpace`), which matches Python's
  code-point semantics and keeps everything kernel-computable.
* The Python dict `contributors` (insertion-ordered, as dicts are) is an
  association list of `Contributor` records: creation appends, update
  maps in place, lookup takes the first match.
* The network is an environment: `fetch` maps a URL to the decoded list
  of changes, `names` maps an account id to the display name returned by
  `get_user_by_account_id(id)['name']`, and a change's message thread
  (`get_review_details(number)['messages']`) is carried on the `Change`
  record itself (the detail fetch is a pure function of the change
  number, so a change occurring twice yields the same thread twice).
* Python's `json.loads` is modelled by a fueled recursive-descent
  recognizer `jsonLoads` over the JSON core grammar (literals, numbers,
  strings, arrays, objects); failure is `none`, mirroring
  `json.JSONDecodeError` (the spec's ResponseParseError).
* `sorted(cl, key=..., reverse=True)` is a stable descending sort; any
  two stable sorts under the same comparator agree, so it is embedded as
  `List.insertionSort` with the relation "key of the left argument is at
  least the key of the right argument".
-/

namespace Count

/-- Contributor record from `count.py`: account id, display name and the
two per-run counters, created with both counters zero. -/
structure Contributor where
  account_id : Nat
  name : String
  review_count : Nat
  commits : Nat
deriving DecidableEq

/-- One entry of `details['messages']`: `author` is `some id` when the
message carries an `author` field with `_account_id = id`, and `none`
when the message has no `author` field. -/
structure Message where
  author : Option Nat
deriving DecidableEq

/-- A merged change as the aggregator reads it: `_number`, the owner's
`_account_id`, insertion/deletion counts, and the message thread that
`get_review_details(_number)` returns for it. -/
structure Change where
  number : Nat
  owner : Nat
  insertions : Int
  deletions : Int
  messages : List Message
deriving DecidableEq

/-- The process-wide mutable state of `count.py` (lines 111-115):
`total_commits`, `total_reviews`, `total_additions`, `total_deletions`
and the insertion-ordered `contributors` dict. -/
structure AggState where
  total_commits : Nat
  total_reviews : Nat
  total_additions : Int
  total_deletions : Int
  contributors : List Contributor
deriving DecidableEq

/-- Initial values of the globals: all counters 0, empty dict. -/
def initState : AggState := ⟨0, 0, 0, 0, []⟩

/-! ### Python string primitives used by the source -/

/-- Python slice `s[n:]` (by code points). -/
def pySliceFrom (s : String) (n : Nat) : String := ⟨s.data.drop n⟩

/-- Python `s.replace(',', ' ')` for the single-character pattern used at
line 171/186 of the source: every comma becomes a space. -/
def pyReplaceCommaSpace (s : String) : String :=
  ⟨s.data.map (fun ch => if ch = ',' then ' ' else ch)⟩

/-! ### JSON decoding (`json.loads`)

A fueled recursive-descent recognizer for the JSON core grammar.  Fringe
lexical details of Python's decoder (exponents, `\u` escapes, rejection
of leading zeros) are simplified, but the structure — whitespace,
literals, numbers, strings, arrays, objects, and whole-input consumption
— is the real grammar. -/

/-- Decoded JSON values.  Number and string payloads keep their lexemes;
the claims under study depend only on parse success or failure. -/
inductive JsonVal where
  | null : JsonVal
  | bool (b : Bool) : JsonVal
  | num (raw : List Char) : JsonVal
  | str (chars : List Char) : JsonVal
  | arr (elems : List JsonVal) : JsonVal
  | obj (members : List (List Char × JsonVal)) : JsonVal

/-- JSON whitespace. -/
def isJsonWs (c : Char) : Bool :=
  c = ' ' || c = '\t' || c = '\n' || c = '\r'

/-- Skip leading JSON whitespace. -/
def skipWs (cs : List Char) : List Char := cs.dropWhile isJsonWs

/-- Parse the body of a JSON string after the opening quote; returns the
content and the remaining input, `none` on an unterminated string. -/
def strBody : List Char → Option (List Char × List Char)
  | [] => none
  | '"' :: rest => some ([], rest)
  | '\\' :: c :: rest =>
    (strBody rest).map (fun p => (c :: p.1, p.2))
  | c :: rest =>
    (strBody rest).map (fun p => (c :: p.1, p.2))

/-- Parse a JSON number (optional minus, digits, optional fraction). -/
def numLex (cs : List Char) : Option (JsonVal × List Char) :=
  let sign : List Char := if cs.head? = some '-' then ['-'] else []
  let cs1 := if cs.head? = some '-' then cs.drop 1 else cs
  let ds := cs1.takeWhile Char.isDigit
  let rest := cs1.dropWhile Char.isDigit
  if ds.isEmpty then none
  else
    match rest with
    | '.' :: r2 =>
      let fs := r2.takeWhile Char.isDigit
      if fs.isEmpty then none
      else some (.num (sign ++ ds ++ '.' :: fs), r2.dropWhile Char.isDigit)
    | _ => some (.num (sign ++ ds), rest)

/-- Fueled JSON value recognizer.  Array and object tails recurse by
re-entering on a synthesized opening bracket, which keeps the recursion
structural on the fuel; empty tails produced that way are rejected so
that trailing commas fail as in Python. -/
def parseJson : Nat → List Char → Option (JsonVal × List Char)
  | 0, _ => none
  | fuel+1, cs0 =>
    match skipWs cs0 with
    | 'n' :: 'u' :: 'l' :: 'l' :: rest => some (.null, rest)
    | 't' :: 'r' :: 'u' :: 'e' :: rest => some (.bool true, rest)
    | 'f' :: 'a' :: 'l' :: 's' :: 'e' :: rest => some (.bool false, rest)
    | '"' :: rest => (strBody rest).map (fun p => (.str p.1, p.2))
    | '[' :: rest0 =>
      (match skipWs rest0 with
       | ']' :: r => some (.arr [], r)
       | rest =>
         match parseJson fuel rest with
         | none => none
         | some (v, r1) =>
           match skipWs r1 with
           | ',' :: r2 =>
             (match parseJson fuel ('[' :: r2) with
              | some (.arr vs, r3) =>
                if vs.isEmpty then none else some (.arr (v :: vs), r3)
              | _ => none)
           | ']' :: r2 => some (.arr [v], r2)
           | _ => none)
    | '\x7b' :: rest0 =>
      (match skipWs rest0 with
       | '\x7d' :: r => some (.obj [], r)
       | '"' :: r =>
         (match strBody r with
          | none => none
          | some (key, r1) =>
            match skipWs r1 with
            | ':' :: r2 =>
              (match parseJson fuel r2 with
               | none => none
               | some (v, r3) =>
                 match skipWs r3 with
                 | ',' :: r4 =>
                   (match parseJson fuel ('\x7b' :: r4) with
                    | some (.obj ms, r5) =>
                      if ms.isEmpty then none
                      else some (.obj ((key, v) :: ms), r5)
                    | _ => none)
                 | '\x7d' :: r4 => some (.obj [(key, v)], r4)
                 | _ => none)
            | _ => none)
       | _ => none)
    | cs =>
      match cs with
      | c :: _ => if c = '-' ∨ c.isDigit then numLex cs else none
      | [] => none

/-- Model of Python `json.loads`: parse one value, then require that
only whitespace remains; `none` models `json.JSONDecodeError`. -/
def jsonLoads (s : String) : Option JsonVal :=
  match parseJson (s.data.length + 1) s.data with
  | some (v, rest) => if (skipWs rest).isEmpty then some v else none
  | none => none

/-! ### Gerrit client -/

/-- The fixed base URL (line 12 of the source). -/
def GERRIT : String := "https://review.openstack.org"

/-- The four-character anti-XSSI guard Gerrit prepends to JSON bodies:
right parenthesis, right square bracket, right curly bracket, single
quote. -/
def xssiMagic : String :=
  ⟨[Char.ofNat 41, Char.ofNat 93, Char.ofNat 125, Char.ofNat 39]⟩

/-- Line 34-37 of the source: `json.loads(r.text[4:])` — the first four
characters of the body are sliced off unconditionally and the remainder
is JSON-decoded. -/
def response_body_to_json (r : String) : Option JsonVal :=
  jsonLoads (pySliceFrom r 4)

/-- Modelled from the spec: a parsing step that verifies the
anti-XSSI guard before decoding, failing on any body that does not begin
with it.  This is the behaviour section 4.3 of the spec describes; it is
compared against `response_body_to_json`, which the source actually
implements. -/
def checkedParse (r : String) : Option JsonVal :=
  if xssiMagic.data.isPrefixOf r.data then jsonLoads (pySliceFrom r 4)
  else none

/-- Repository entry of the input file: name, date window, and the
optional stable-branch flag (absent means false). -/
structure Repo where
  name : String
  release_date : String
  start_date : String
  stable_branch : Bool
deriving DecidableEq

/-- URL of the default-branch query (lines 47-50). -/
def masterUrl (repo : Repo) : String :=
  GERRIT ++ "/changes/?q=status:merged+before:" ++ repo.release_date ++
    "+after:" ++ repo.start_date ++ "+project:" ++ repo.name

/-- URL of the stable-branch query (lines 55-58). -/
def stableUrl (repo : Repo) (release_name : String) : String :=
  GERRIT ++ "/changes/?q=status:merged+project:" ++ repo.name ++
    "+branch:stable/" ++ release_name

/-- Lines 40-62 of the source: fetch the default-branch query, and when
the repository is flagged `stable_branch` append the stable-branch query
result with `+=` — plain concatenation, no deduplication.  The network
is the environment `fetch`, mapping a URL to its decoded change list. -/
def get_merged_reviews_for_repository (fetch : String → List Change)
    (repo : Repo) (release_name : String) : List Change :=
  let reviews := fetch (masterUrl repo)
  if repo.stable_branch then reviews ++ fetch (stableUrl repo release_name)
  else reviews

/-! ### The contributors dict -/

/-- Lookup in the `contributors` dict: first record with the id. -/
def lookupC (m : List Contributor) (id : Nat) : Option Contributor :=
  m.find? (fun c => c.account_id = id)

/-- Python `user_id in contributors.keys()`. -/
def memberC (m : List Contributor) (id : Nat) : Bool :=
  (lookupC m id).isSome

/-- Review count credited to an account id (0 when absent). -/
def rcOf (m : List Contributor) (id : Nat) : Nat :=
  match lookupC m id with
  | some c => c.review_count
  | none => 0

/-- Commits credited to an account id (0 when absent). -/
def commitsOf (m : List Contributor) (id : Nat) : Nat :=
  match lookupC m id with
  | some c => c.commits
  | none => 0

/-- In-place mutation of the record stored under an id (Python mutates
the shared `Contributor` object, leaving the dict order unchanged). -/
def updateC (m : List Contributor) (id : Nat)
    (f : Contributor → Contributor) : List Contributor :=
  m.map (fun c => if c.account_id = id then f c else c)

/-- Sum of the `commits` counters over the dict. -/
def sumCommits (m : List Contributor) : Nat := (m.map (·.commits)).sum

/-- Sum of the `review_count` counters over the dict. -/
def sumReviews (m : List Contributor) : Nat :=
  (m.map (·.review_count)).sum

/-! ### Aggregator -/

/-- Lines 123-133 of the source, the commit accounting for one change:
if the owner is a fresh, non-ignored id, fetch the name, create a
`Contributor`, and bump its `commits` and the global `total_commits`;
else if the owner already has a record, bump that record and the global;
otherwise (fresh but ignored) do nothing. -/
def ownerAccounting (names : Nat → String) (ignored : List Nat)
    (ch : Change) (s : AggState) : AggState :=
  if memberC s.contributors ch.owner = false ∧ ch.owner ∉ ignored then
    { s with
      contributors := s.contributors ++ [⟨ch.owner, names ch.owner, 0, 1⟩],
      total_commits := s.total_commits + 1 }
  else if memberC s.contributors ch.owner = true then
    { s with
      contributors :=
        updateC s.contributors ch.owner
          (fun c => { c with commits := c.commits + 1 }),
      total_commits := s.total_commits + 1 }
  else s

/-- Lines 138-151 of the source, one message of the detail thread:
`author_id` is the author's account id when the message has an `author`
field; when it is truthy (nonzero) and differs from the patch owner, a
fresh non-ignored author gets a record with `review_count` 1, an
existing author gets `review_count` bumped, an ignored fresh author is
skipped. -/
def processMessage (names : Nat → String) (ignored : List Nat)
    (owner : Nat) (s : AggState) (msg : Message) : AggState :=
  match msg.author with
  | none => s
  | some a =>
    if a ≠ 0 ∧ a ≠ owner then
      if memberC s.contributors a = false ∧ a ∉ ignored then
        { s with contributors := s.contributors ++ [⟨a, names a, 1, 0⟩] }
      else if memberC s.contributors a = true then
        { s with
          contributors :=
            updateC s.contributors a
              (fun c => { c with review_count := c.review_count + 1 }) }
      else s
    else s

/-- The message loop of lines 138-151. -/
def processMessages (names : Nat → String) (ignored : List Nat)
    (owner : Nat) (s : AggState) (msgs : List Message) : AggState :=
  msgs.foldl (processMessage names ignored owner) s

/-- Accounting effect of one change on the global state (owner
accounting then the message thread); the line counts go to the per
repository accumulators handled in `stepChange`. -/
def acctChange (names : Nat → String) (ignored : List Nat)
    (s : AggState) (ch : Change) : AggState :=
  processMessages names ignored ch.owner
    (ownerAccounting names ignored ch s) ch.messages

/-- One iteration of the per-change loop (lines 120-151): add the
change's insertions and deletions to the running `project_additions` and
`project_deletions`, then run the accounting. -/
def stepChange (names : Nat → String) (ignored : List Nat)
    (t : Int × Int × AggState) (ch : Change) : Int × Int × AggState :=
  (t.1 + ch.insertions, t.2.1 + ch.deletions,
    acctChange names ignored t.2.2 ch)

/-- Lines 117-154: process one repository's fetched change list with
fresh project accumulators, then fold them into the global totals. -/
def processRepository (names : Nat → String) (ignored : List Nat)
    (changes : List Change) (s : AggState) : AggState :=
  let t := changes.foldl (stepChange names ignored) (0, 0, s)
  { t.2.2 with
    total_additions := t.2.2.total_additions + t.1,
    total_deletions := t.2.2.total_deletions + t.2.1 }

/-- The whole aggregation run over the per-repository fetched change
lists, starting from the initial globals. -/
def processRun (names : Nat → String) (ignored : List Nat)
    (changeLists : List (List Change)) : AggState :=
  changeLists.foldl
    (fun s changes => processRepository names ignored changes s) initState

/-- Lines 157-161, first half: after all repositories, `total_reviews`
accumulates every record's `review_count` on top of its (never touched)
running value. -/
def finalTotalReviews (s : AggState) : Nat :=
  s.contributors.foldl (fun acc c => acc + c.review_count) s.total_reviews

/-- Lines 157-161, second half: the reportable list `cl` keeps every
record with a positive review count or a positive commit count, in dict
order. -/
def reportable (m : List Contributor) : List Contributor :=
  m.filter (fun c => c.review_count > 0 || c.commits > 0)

/-! ### Reporter -/

/-- Python `sorted(cl, key=lambda c: key(c), reverse=True)`: a stable
descending sort by the key.  All stable sorts under one comparator
produce the same list, so insertion sort with the relation "left key is
at least right key" is extensionally the library sort. -/
def sortStable (key : Contributor → Nat) (l : List Contributor) :
    List Contributor :=
  List.insertionSort (fun a b => key b ≤ key a) l

/-- One `'%d,%s,%d,%f,%f'` output line of the leaderboard, kept as its
five fields: 1-based rank, display name after comma replacement, the
count, its share of the total, and the running cumulative share.  Shares
are exact rationals; the six-decimal float rendering of `%f` is not
modelled. -/
structure OutputLine where
  rank : Nat
  name : String
  count : Nat
  share : ℚ
  cum : ℚ
deriving DecidableEq

/-- The emit loop of lines 163-192: enumerate the sorted list from 1,
skip zero counts (the index still advances), accumulate the running
share, replace commas in the name, and emit the line. -/
def reportLinesAux (key : Contributor → Nat) (total : Nat) :
    Nat → ℚ → List Contributor → List OutputLine
  | _, _, [] => []
  | i, run, c :: cs =>
    if key c ≠ 0 then
      ⟨i, pyReplaceCommaSpace c.name, key c, (key c : ℚ) / (total : ℚ),
          run + (key c : ℚ) / (total : ℚ)⟩ ::
        reportLinesAux key total (i + 1) (run + (key c : ℚ) / (total : ℚ)) cs
    else reportLinesAux key total (i + 1) run cs

/-- The emit loop started at rank 1 with running share 0.0. -/
def reportLines (key : Contributor → Nat) (total : Nat)
    (l : List Contributor) : List OutputLine :=
  reportLinesAux key total 1 0 l

/-- Reviews mode (lines 163-177) for a run over the given fetched change
lists: sort the reportable list by `review_count` descending and emit,
with the derived `total_reviews` as denominator. -/
def reviewsReport (names : Nat → String) (ignored : List Nat)
    (changeLists : List (List Change)) : List OutputLine :=
  let s := processRun names ignored changeLists
  reportLines (·.review_count) (finalTotalReviews s)
    (sortStable (·.review_count) (reportable s.contributors))

/-- Commits mode (lines 178-192): the same structure keyed on `commits`
with the global `total_commits` as denominator. -/
def commitsReport (names : Nat → String) (ignored : List Nat)
    (changeLists : List (List Change)) : List OutputLine :=
  let s := processRun names ignored changeLists
  reportLines (·.commits) s.total_commits
    (sortStable (·.commits) (reportable s.contributors))

/-- Modelled from the spec: the name "with commas stripped (removed)"
that claim C6 describes — commas deleted outright.  Compared against
`pyReplaceCommaSpace`, which the source actually applies. -/
def stripCommasSpec (s : String) : String :=
  ⟨s.data.filter (fun ch => ch ≠ ',')⟩

/-- Prefix sums of a list of rationals: entry `n` is the sum of the
first `n + 1` elements. -/
def prefixSums (l : List ℚ) : List ℚ :=
  (List.range l.length).map (fun n => (l.take (n + 1)).sum)

/-- The first four fields of an output line (everything but the running
cumulative share). -/
def lineData (o : OutputLine) : Nat × String × Nat × ℚ :=
  (o.rank, o.name, o.count, o.share)

/-- Number of change events whose owner is not ignored, counted once per
occurrence across the fetched lists. -/
def countNonIgnored (ignored : List Nat)
    (changeLists : List (List Change)) : Nat :=
  (changeLists.map
    (fun l => l.countP (fun c => decide (c.owner ∉ ignored)))).sum

/-- Sum of the insertions of a change list (with multiplicity). -/
def sumIns (l : List Change) : Int := (l.map (·.insertions)).sum

/-- Sum of the deletions of a change list (with multiplicity). -/
def sumDels (l : List Change) : Int := (l.map (·.deletions)).sum

/-- No ignored id has a record in the dict. -/
def ignFree (ignored : List Nat) (m : List Contributor) : Prop :=
  ∀ a ∈ ignored, memberC m a = false

/-- No two records share an account id. -/
def keysNodup (m : List Contributor) : Prop :=
  (m.map (·.account_id)).Nodup

/-- The run invariant: ignored ids have no record, ids are unique, the
global `total_commits` is exactly the commits handed out, and the
`total_reviews` variable is untouched. -/
def Inv (ignored : List Nat) (s : AggState) : Prop :=
  ignFree ignored s.contributors ∧ keysNodup s.contributors ∧
    sumCommits s.contributors = s.total_commits ∧ s.total_reviews = 0

/-! ### Dictionary lemmas -/

theorem memberC_nil (a : Nat) : memberC [] a = false := rfl

theorem memberC_append (m : List Contributor) (e : Contributor) (a : Nat) :
    memberC (m ++ [e]) a = (memberC m a || decide (e.account_id = a)) := by
  unfold memberC lookupC
  rw [List.find?_append]
  cases h : List.find? (fun c => decide (c.account_id = a)) m <;>
    simp [List.find?] <;> split <;> simp_all

theorem rcOf_append_ne (m : List Contributor) (e : Contributor) (a : Nat)
    (h : e.account_id ≠ a) : rcOf (m ++ [e]) a = rcOf m a := by
  unfold rcOf lookupC
  rw [List.find?_append]
  cases hm : List.find? (fun c => decide (c.account_id = a)) m <;>
    simp [List.find?, h]

theorem rcOf_append_self (m : List Contributor) (e : Contributor) (a : Nat)
    (hm : memberC m a = false) (he : e.account_id = a) :
    rcOf (m ++ [e]) a = e.review_count := by
  unfold rcOf lookupC
  unfold memberC lookupC at hm
  rw [List.find?_append]
  cases hfind : List.find? (fun c => decide (c.account_id = a)) m
  · simp [List.find?, he]
  · simp [hfind] at hm

theorem rcOf_of_not_member (m : List Contributor) (a : Nat)
    (h : memberC m a = false) : rcOf m a = 0 := by
  unfold rcOf
  unfold memberC at h
  cases hfind : lookupC m a
  · rfl
  · simp [hfind] at h


theorem updateC_map_account_id (m : List Contributor) (x : Nat)
    (f : Contributor → Contributor)
    (hf : ∀ c, (f c).account_id = c.account_id) :
    (updateC m x f).map (·.account_id) = m.map (·.account_id) := by
  unfold updateC
  rw [List.map_map]
  apply List.map_congr_left
  intro c _
  by_cases h : c.account_id = x <;> simp [h, hf]

theorem lookupC_updateC (m : List Contributor) (x : Nat)
    (f : Contributor → Contributor)
    (hf : ∀ c, (f c).account_id = c.account_id) (a : Nat) :
    lookupC (updateC m x f) a
      = (lookupC m a).map (fun c => if c.account_id = x then f c else c) := by
  unfold lookupC updateC
  rw [List.find?_map]
  have hp : ((fun c => decide (c.account_id = a)) ∘
      fun c => if c.account_id = x then f c else c)
      = (fun c : Contributor => decide (c.account_id = a)) := by
    funext c
    by_cases h : c.account_id = x <;> simp [Function.comp, h, hf]
  rw [hp]

theorem memberC_updateC (m : List Contributor) (x : Nat)
    (f : Contributor → Contributor)
    (hf : ∀ c, (f c).account_id = c.account_id) (a : Nat) :
    memberC (updateC m x f) a = memberC m a := by
  unfold memberC
  rw [lookupC_updateC m x f hf a]
  cases lookupC m a <;> rfl

theorem lookupC_account_id (m : List Contributor) (a : Nat)
    (c : Contributor) (h : lookupC m a = some c) : c.account_id = a := by
  have := List.find?_some h
  simpa using this

theorem keysNodup_updateC (m : List Contributor) (x : Nat)
    (f : Contributor → Contributor)
    (hf : ∀ c, (f c).account_id = c.account_id)
    (h : keysNodup m) : keysNodup (updateC m x f) := by
  unfold keysNodup
  rwa [updateC_map_account_id m x f hf]

theorem memberC_eq_false_iff (m : List Contributor) (a : Nat) :
    memberC m a = false ↔ ∀ c ∈ m, c.account_id ≠ a := by
  induction m with
  | nil => simp [memberC_nil]
  | cons c t ih =>
    by_cases hc : c.account_id = a
    · unfold memberC lookupC
      rw [List.find?_cons_of_pos _ (by simpa using hc)]
      simp [hc]
    · unfold memberC lookupC at ih ⊢
      rw [List.find?_cons_of_neg _ (by simpa using hc)]
      rw [ih]
      simp only [List.mem_cons]
      constructor
      · rintro h c1 (rfl | h1)
        · exact hc
        · exact h c1 h1
      · intro h c1 h1
        exact h c1 (Or.inr h1)

theorem updateC_of_not_member (m : List Contributor) (x : Nat)
    (f : Contributor → Contributor) (h : memberC m x = false) :
    updateC m x f = m := by
  unfold updateC
  have : List.map (fun c => if c.account_id = x then f c else c) m
      = List.map id m :=
    List.map_congr_left (fun c hc => by
      rw [if_neg ((memberC_eq_false_iff m x).mp h c hc)]; rfl)
  rw [this, List.map_id]

theorem rcOf_updateC_ne (m : List Contributor) (x : Nat)
    (f : Contributor → Contributor)
    (hf : ∀ c, (f c).account_id = c.account_id)
    (a : Nat) (hax : x ≠ a) :
    rcOf (updateC m x f) a = rcOf m a := by
  unfold rcOf
  rw [lookupC_updateC m x f hf a]
  cases h : lookupC m a with
  | none => rfl
  | some c =>
    have hca := lookupC_account_id m a c h
    have hcx : c.account_id ≠ x := by rw [hca]; exact Ne.symm hax
    simp [Option.map_some', if_neg hcx]

theorem rcOf_updateC_rc_self (m : List Contributor) (a : Nat)
    (h : memberC m a = true) :
    rcOf (updateC m a (fun c => { c with review_count := c.review_count + 1 })) a
      = rcOf m a + 1 := by
  unfold rcOf
  rw [lookupC_updateC m a
    (fun c => { c with review_count := c.review_count + 1 }) (fun c => rfl) a]
  cases hl : lookupC m a with
  | none => unfold memberC at h; rw [hl] at h; simp at h
  | some c =>
    have hca := lookupC_account_id m a c hl
    simp [Option.map_some', if_pos hca]

theorem rcOf_updateC_commit (m : List Contributor) (x : Nat) (a : Nat) :
    rcOf (updateC m x (fun c => { c with commits := c.commits + 1 })) a
      = rcOf m a := by
  unfold rcOf
  rw [lookupC_updateC m x
    (fun c => { c with commits := c.commits + 1 }) (fun c => rfl) a]
  cases hl : lookupC m a with
  | none => rfl
  | some c => by_cases hc : c.account_id = x <;> simp [Option.map_some', hc]

theorem sumCommits_append (m : List Contributor) (e : Contributor) :
    sumCommits (m ++ [e]) = sumCommits m + e.commits := by
  simp [sumCommits]

theorem sumCommits_updateC_rc (m : List Contributor) (x : Nat) :
    sumCommits (updateC m x (fun c => { c with review_count := c.review_count + 1 }))
      = sumCommits m := by
  unfold sumCommits updateC
  rw [List.map_map]
  congr 1
  apply List.map_congr_left
  intro c _
  by_cases h : c.account_id = x <;> simp [h]

theorem sumCommits_updateC_commit (m : List Contributor) (x : Nat)
    (hnd : keysNodup m) (hm : memberC m x = true) :
    sumCommits (updateC m x (fun c => { c with commits := c.commits + 1 }))
      = sumCommits m + 1 := by
  induction m with
  | nil => simp [memberC, lookupC, List.find?] at hm
  | cons c t ih =>
    unfold keysNodup at hnd ih
    simp only [List.map_cons, List.nodup_cons] at hnd
    by_cases hc : c.account_id = x
    · have ht : memberC t x = false := by
        rw [memberC_eq_false_iff]
        intro y hy hyx
        exact hnd.1 (by
          rw [← hc] at hyx
          exact hyx ▸ List.mem_map_of_mem (·.account_id) hy)
      unfold updateC sumCommits
      simp only [List.map_cons, if_pos hc, List.sum_cons]
      rw [show List.map
          (fun c => if c.account_id = x then { c with commits := c.commits + 1 } else c) t
          = updateC t x (fun c => { c with commits := c.commits + 1 }) from rfl]
      rw [updateC_of_not_member t x _ ht]
      omega
    · have hm' : memberC t x = true := by
        unfold memberC lookupC at hm ⊢
        rw [List.find?_cons_of_neg _ (by simpa using hc)] at hm
        exact hm
      unfold updateC sumCommits at ih ⊢
      simp only [List.map_cons, if_neg hc, List.sum_cons]
      rw [ih hnd.2 hm']
      omega

theorem keysNodup_append (m : List Contributor) (e : Contributor)
    (hnd : keysNodup m) (h : memberC m e.account_id = false) :
    keysNodup (m ++ [e]) := by
  unfold keysNodup at hnd ⊢
  rw [List.map_append]
  simp only [List.map_cons, List.map_nil]
  rw [(List.perm_append_singleton _ _).nodup_iff]
  rw [List.nodup_cons]
  constructor
  · intro hmem
    obtain ⟨c, hc, hca⟩ := List.mem_map.mp hmem
    exact (memberC_eq_false_iff m e.account_id).mp h c hc hca
  · exact hnd

theorem mem_memberC (m : List Contributor) (c : Contributor) (h : c ∈ m) :
    memberC m c.account_id = true := by
  induction m with
  | nil => simp at h
  | cons d t ih =>
    rcases List.mem_cons.mp h with rfl | h1
    · unfold memberC lookupC
      rw [List.find?_cons_of_pos _ (by simp)]
      rfl
    · by_cases hd : d.account_id = c.account_id
      · unfold memberC lookupC
        rw [List.find?_cons_of_pos _ (by simpa using hd)]
        rfl
      · unfold memberC lookupC at ih ⊢
        rw [List.find?_cons_of_neg _ (by simpa using hd)]
        exact ih h1

/-! ### Aggregator invariants -/

theorem ignFree_append (i : List Nat) (m : List Contributor) (e : Contributor)
    (h : ignFree i m) (he : e.account_id ∉ i) : ignFree i (m ++ [e]) := by
  intro b hb
  have hne : e.account_id ≠ b := fun heq => he (heq ▸ hb)
  simp [memberC_append, h b hb, hne]

theorem ignFree_updateC (i : List Nat) (m : List Contributor) (x : Nat)
    (f : Contributor → Contributor)
    (hf : ∀ c, (f c).account_id = c.account_id)
    (h : ignFree i m) : ignFree i (updateC m x f) := by
  intro b hb
  rw [memberC_updateC m x f hf b]
  exact h b hb

theorem Inv_initState (i : List Nat) : Inv i initState := by
  refine ⟨fun a _ => rfl, by simp [keysNodup, initState], rfl, rfl⟩

theorem ownerAccounting_shape (n : Nat → String) (i : List Nat)
    (ch : Change) (s : AggState) :
    ∃ m k, ownerAccounting n i ch s
      = { s with contributors := m, total_commits := s.total_commits + k } := by
  unfold ownerAccounting
  split
  · exact ⟨_, 1, rfl⟩
  · split
    · exact ⟨_, 1, rfl⟩
    · exact ⟨s.contributors, 0, rfl⟩

theorem processMessage_shape (n : Nat → String) (i : List Nat) (o : Nat)
    (s : AggState) (msg : Message) :
    ∃ m, processMessage n i o s msg = { s with contributors := m } := by
  rcases msg with ⟨_ | a⟩
  · exact ⟨s.contributors, rfl⟩
  · simp only [processMessage]
    split
    · split
      · exact ⟨_, rfl⟩
      · split
        · exact ⟨_, rfl⟩
        · exact ⟨s.contributors, rfl⟩
    · exact ⟨s.contributors, rfl⟩

theorem processMessages_shape (n : Nat → String) (i : List Nat) (o : Nat) :
    ∀ (msgs : List Message) (s : AggState),
    ∃ m, processMessages n i o s msgs = { s with contributors := m } := by
  intro msgs
  induction msgs with
  | nil => intro s; exact ⟨s.contributors, rfl⟩
  | cons msg t ih =>
    intro s
    obtain ⟨m1, h1⟩ := processMessage_shape n i o s msg
    obtain ⟨m2, h2⟩ := ih (processMessage n i o s msg)
    exact ⟨m2, by rw [processMessages, List.foldl_cons, ← processMessages, h2, h1]⟩

theorem acctChange_shape (n : Nat → String) (i : List Nat)
    (s : AggState) (ch : Change) :
    ∃ m k, acctChange n i s ch
      = { s with contributors := m, total_commits := s.total_commits + k } := by
  obtain ⟨m1, k1, h1⟩ := ownerAccounting_shape n i ch s
  obtain ⟨m2, h2⟩ := processMessages_shape n i ch.owner ch.messages
    (ownerAccounting n i ch s)
  exact ⟨m2, k1, by rw [acctChange, h2, h1]⟩

theorem processMessage_inv (n : Nat → String) (i : List Nat) (o : Nat)
    (s : AggState) (msg : Message) (h : Inv i s) :
    Inv i (processMessage n i o s msg) := by
  obtain ⟨hig, hnd, hsum, hrev⟩ := h
  rcases msg with ⟨_ | a⟩
  · exact ⟨hig, hnd, hsum, hrev⟩
  · simp only [processMessage]
    split
    · split
      · rename_i hcond hfresh
        refine ⟨ignFree_append i _ _ hig hfresh.2,
          keysNodup_append _ _ hnd hfresh.1, ?_, hrev⟩
        rw [sumCommits_append]
        simpa using hsum
      · split
        · rename_i hmem
          refine ⟨ignFree_updateC i _ _ _ (fun c => rfl) hig,
            keysNodup_updateC _ _ _ (fun c => rfl) hnd, ?_, hrev⟩
          rw [sumCommits_updateC_rc]
          exact hsum
        · exact ⟨hig, hnd, hsum, hrev⟩
    · exact ⟨hig, hnd, hsum, hrev⟩

theorem processMessages_inv (n : Nat → String) (i : List Nat) (o : Nat) :
    ∀ (msgs : List Message) (s : AggState), Inv i s →
    Inv i (processMessages n i o s msgs) := by
  intro msgs
  induction msgs with
  | nil => intro s hs; exact hs
  | cons msg t ih =>
    intro s hs
    rw [processMessages, List.foldl_cons, ← processMessages]
    exact ih _ (processMessage_inv n i o s msg hs)

theorem ownerAccounting_spec (n : Nat → String) (i : List Nat)
    (ch : Change) (s : AggState) (h : Inv i s) :
    Inv i (ownerAccounting n i ch s) ∧
      (ownerAccounting n i ch s).total_commits
        = s.total_commits + (if ch.owner ∈ i then 0 else 1) := by
  obtain ⟨hig, hnd, hsum, hrev⟩ := h
  unfold ownerAccounting
  split
  · rename_i hc
    constructor
    · refine ⟨ignFree_append i _ _ hig hc.2,
        keysNodup_append _ _ hnd hc.1, ?_, hrev⟩
      rw [sumCommits_append]
      simpa using hsum
    · simp [if_neg hc.2]
  · split
    · rename_i hc hmem
      have howner : ch.owner ∉ i := by
        intro hin
        rw [hig ch.owner hin] at hmem
        exact absurd hmem (by simp)
      constructor
      · refine ⟨ignFree_updateC i _ _ _ (fun c => rfl) hig,
          keysNodup_updateC _ _ _ (fun c => rfl) hnd, ?_, hrev⟩
        rw [sumCommits_updateC_commit _ _ hnd hmem, hsum]
      · simp [if_neg howner]
    · rename_i hc hmem
      have hfalse : memberC s.contributors ch.owner = false := by
        cases hb : memberC s.contributors ch.owner
        · rfl
        · exact absurd hb hmem
      have hin : ch.owner ∈ i := by
        by_contra hno
        exact hc ⟨hfalse, hno⟩
      exact ⟨⟨hig, hnd, hsum, hrev⟩, by simp [if_pos hin]⟩

theorem acctChange_spec (n : Nat → String) (i : List Nat)
    (s : AggState) (ch : Change) (h : Inv i s) :
    Inv i (acctChange n i s ch) ∧
      (acctChange n i s ch).total_commits
        = s.total_commits + (if ch.owner ∈ i then 0 else 1) := by
  obtain ⟨h1, h2⟩ := ownerAccounting_spec n i ch s h
  constructor
  · exact processMessages_inv n i ch.owner ch.messages _ h1
  · obtain ⟨m, hm⟩ := processMessages_shape n i ch.owner ch.messages
      (ownerAccounting n i ch s)
    rw [acctChange, hm]
    exact h2

theorem foldlAcct_spec (n : Nat → String) (i : List Nat) :
    ∀ (l : List Change) (s : AggState), Inv i s →
    Inv i (l.foldl (acctChange n i) s) ∧
      (l.foldl (acctChange n i) s).total_commits
        = s.total_commits + l.countP (fun c => decide (c.owner ∉ i)) := by
  intro l
  induction l with
  | nil => intro s hs; exact ⟨hs, by simp⟩
  | cons c t ih =>
    intro s hs
    obtain ⟨h1, h2⟩ := acctChange_spec n i s c hs
    obtain ⟨h3, h4⟩ := ih (acctChange n i s c) h1
    refine ⟨by rwa [List.foldl_cons], ?_⟩
    rw [List.foldl_cons, h4, h2, List.countP_cons]
    by_cases hc : c.owner ∈ i <;> simp [hc] <;> omega

theorem foldlAcct_shape (n : Nat → String) (i : List Nat) :
    ∀ (l : List Change) (s : AggState),
    ∃ m k, l.foldl (acctChange n i) s
      = { s with contributors := m, total_commits := s.total_commits + k } := by
  intro l
  induction l with
  | nil => intro s; exact ⟨s.contributors, 0, rfl⟩
  | cons c t ih =>
    intro s
    obtain ⟨m1, k1, h1⟩ := acctChange_shape n i s c
    obtain ⟨m2, k2, h2⟩ := ih (acctChange n i s c)
    refine ⟨m2, k1 + k2, ?_⟩
    rw [List.foldl_cons, h2, h1]
    simp [add_assoc]

theorem sumIns_cons (c : Change) (l : List Change) :
    sumIns (c :: l) = c.insertions + sumIns l := by
  simp [sumIns]

theorem sumDels_cons (c : Change) (l : List Change) :
    sumDels (c :: l) = c.deletions + sumDels l := by
  simp [sumDels]

theorem foldl_stepChange_eq (n : Nat → String) (i : List Nat) :
    ∀ (l : List Change) (pa pd : Int) (s : AggState),
    l.foldl (stepChange n i) (pa, pd, s)
      = (pa + sumIns l, pd + sumDels l, l.foldl (acctChange n i) s) := by
  intro l
  induction l with
  | nil => intro pa pd s; simp [sumIns, sumDels]
  | cons c t ih =>
    intro pa pd s
    rw [List.foldl_cons, List.foldl_cons]
    show t.foldl (stepChange n i)
      (pa + c.insertions, pd + c.deletions, acctChange n i s c) = _
    rw [ih, sumIns_cons, sumDels_cons]
    simp [add_assoc]

theorem processRepository_eq (n : Nat → String) (i : List Nat)
    (l : List Change) (s : AggState) :
    processRepository n i l s
      = { l.foldl (acctChange n i) s with
          total_additions :=
            (l.foldl (acctChange n i) s).total_additions + sumIns l,
          total_deletions :=
            (l.foldl (acctChange n i) s).total_deletions + sumDels l } := by
  simp only [processRepository, foldl_stepChange_eq]
  simp

theorem processRepository_spec (n : Nat → String) (i : List Nat)
    (l : List Change) (s : AggState) (h : Inv i s) :
    Inv i (processRepository n i l s) ∧
      (processRepository n i l s).total_commits
        = s.total_commits + l.countP (fun c => decide (c.owner ∉ i)) ∧
      (processRepository n i l s).contributors
        = (l.foldl (acctChange n i) s).contributors := by
  obtain ⟨h1, h2⟩ := foldlAcct_spec n i l s h
  obtain ⟨hig, hnd, hsum, hrev⟩ := h1
  rw [processRepository_eq]
  exact ⟨⟨hig, hnd, hsum, hrev⟩, h2, rfl⟩

theorem processRun_helper (n : Nat → String) (i : List Nat) :
    ∀ (lists : List (List Change)) (s : AggState), Inv i s →
    Inv i (lists.foldl (fun s changes => processRepository n i changes s) s) ∧
      (lists.foldl (fun s changes => processRepository n i changes s) s).total_commits
        = s.total_commits + countNonIgnored i lists := by
  intro lists
  induction lists with
  | nil => intro s hs; exact ⟨hs, by simp [countNonIgnored]⟩
  | cons l t ih =>
    intro s hs
    obtain ⟨h1, h2, _⟩ := processRepository_spec n i l s hs
    obtain ⟨h3, h4⟩ := ih (processRepository n i l s) h1
    refine ⟨by rwa [List.foldl_cons], ?_⟩
    rw [List.foldl_cons, h4, h2]
    simp [countNonIgnored]
    omega

theorem processRun_inv (n : Nat → String) (i : List Nat)
    (lists : List (List Change)) : Inv i (processRun n i lists) := by
  exact (processRun_helper n i lists initState (Inv_initState i)).1

theorem processRun_total_commits (n : Nat → String) (i : List Nat)
    (lists : List (List Change)) :
    (processRun n i lists).total_commits = countNonIgnored i lists := by
  have := (processRun_helper n i lists initState (Inv_initState i)).2
  simpa [initState] using this


theorem foldl_add_rc (l : List Contributor) :
    ∀ init : Nat,
    l.foldl (fun acc c => acc + c.review_count) init = init + sumReviews l := by
  induction l with
  | nil => intro init; simp [sumReviews]
  | cons c t ih =>
    intro init
    rw [List.foldl_cons, ih]
    simp [sumReviews]
    omega

theorem finalTotalReviews_eq (s : AggState) :
    finalTotalReviews s = s.total_reviews + sumReviews s.contributors :=
  foldl_add_rc s.contributors s.total_reviews

theorem mem_of_mem_reportable (m : List Contributor) (c : Contributor)
    (h : c ∈ reportable m) : c ∈ m := by
  unfold reportable at h
  exact (List.mem_filter.mp h).1

/-! ### Claims C1, C2, C3, C9 -/

/-- C1: for every run, the final `total_commits` equals the number of
change events processed whose owner account id is not in the ignored
set, counted once per occurrence across the fetched lists (so a change
returned by both the default-branch and the stable-branch query
contributes two commit events); and every such event lands as exactly
one increment of one contributor's `commits` counter, so those counters
sum to `total_commits`. -/
theorem claim_C1_total_commits (names : Nat → String) (ignored : List Nat)
    (changeLists : List (List Change)) :
    (processRun names ignored changeLists).total_commits
        = countNonIgnored ignored changeLists ∧
      sumCommits (processRun names ignored changeLists).contributors
        = (processRun names ignored changeLists).total_commits :=
  ⟨processRun_total_commits names ignored changeLists,
    (processRun_inv names ignored changeLists).2.2.1⟩

/-- C2: the `total_reviews` variable is never touched during per-change
processing (it is still 0 after the whole run), and the value derived
afterwards by the summation loop of lines 157-159 is exactly the sum of
`review_count` over all contributor records. -/
theorem claim_C2_total_reviews_derived (names : Nat → String)
    (ignored : List Nat) (changeLists : List (List Change)) :
    (processRun names ignored changeLists).total_reviews = 0 ∧
      finalTotalReviews (processRun names ignored changeLists)
        = sumReviews (processRun names ignored changeLists).contributors := by
  have h := processRun_inv names ignored changeLists
  refine ⟨h.2.2.2, ?_⟩
  rw [finalTotalReviews_eq, h.2.2.2, Nat.zero_add]

/-- C3: at most one contributor record ever exists per account id (the
stored ids are pairwise distinct), no record is ever created for an
ignored id, and consequently the reportable list carries no ignored
account id. -/
theorem claim_C3_no_ignored_contributors (names : Nat → String)
    (ignored : List Nat) (changeLists : List (List Change)) :
    keysNodup (processRun names ignored changeLists).contributors ∧
      (∀ a ∈ ignored,
        memberC (processRun names ignored changeLists).contributors a = false) ∧
      ∀ c ∈ reportable (processRun names ignored changeLists).contributors,
        c.account_id ∉ ignored := by
  have h := processRun_inv names ignored changeLists
  refine ⟨h.2.1, h.1, ?_⟩
  intro c hc hin
  have hmem := mem_of_mem_reportable _ c hc
  have htrue := mem_memberC _ c hmem
  rw [h.1 c.account_id hin] at htrue
  exact absurd htrue (by simp)

/-- C9: a message whose author field carries account id 0 (falsy in
Python) is processed exactly like a message with no author field at all:
the state, and in particular every contributor record and review count,
is left untouched. -/
theorem claim_C9_zero_author_like_missing (names : Nat → String)
    (ignored : List Nat) (owner : Nat) (s : AggState) :
    processMessage names ignored owner s ⟨some 0⟩
        = processMessage names ignored owner s ⟨none⟩ ∧
      processMessage names ignored owner s ⟨some 0⟩ = s := by
  constructor <;> simp [processMessage]


/-! ### Sort stability (C7) -/

theorem filter_orderedInsert_pos (key : Contributor → Nat) (x : Contributor)
    (k : Nat) (hx : key x = k) :
    ∀ l : List Contributor,
    (List.orderedInsert (fun a b => key b ≤ key a) x l).filter
        (fun c => key c == k)
      = x :: l.filter (fun c => key c == k) := by
  intro l
  induction l with
  | nil => simp [List.orderedInsert, List.filter, hx]
  | cons y ys ih =>
    by_cases hr : key y ≤ key x
    · rw [List.orderedInsert, if_pos hr]
      simp [List.filter, hx]
    · rw [List.orderedInsert, if_neg hr]
      have hy : (key y == k) = false := by
        simp only [beq_eq_false_iff_ne, ne_eq]
        intro hk
        exact hr (hx ▸ hk ▸ le_refl (key y))
      simp only [List.filter, hy]
      exact ih

theorem filter_orderedInsert_neg (key : Contributor → Nat) (x : Contributor)
    (k : Nat) (hx : key x ≠ k) :
    ∀ l : List Contributor,
    (List.orderedInsert (fun a b => key b ≤ key a) x l).filter
        (fun c => key c == k)
      = l.filter (fun c => key c == k) := by
  intro l
  induction l with
  | nil =>
    simp only [List.orderedInsert, List.filter]
    rw [show (key x == k) = false by simpa using hx]
  | cons y ys ih =>
    by_cases hr : key y ≤ key x
    · rw [List.orderedInsert, if_pos hr]
      simp only [List.filter]
      rw [show (key x == k) = false by simpa using hx]
    · rw [List.orderedInsert, if_neg hr]
      simp only [List.filter]
      rw [ih]

theorem filter_sortStable (key : Contributor → Nat) (k : Nat) :
    ∀ l : List Contributor,
    (sortStable key l).filter (fun c => key c == k)
      = l.filter (fun c => key c == k) := by
  intro l
  induction l with
  | nil => rfl
  | cons c t ih =>
    unfold sortStable at ih ⊢
    rw [List.insertionSort]
    by_cases hc : key c = k
    · rw [filter_orderedInsert_pos key c k hc, ih]
      simp only [List.filter]
      rw [show (key c == k) = true by simpa using hc]
    · rw [filter_orderedInsert_neg key c k hc, ih]
      simp only [List.filter]
      rw [show (key c == k) = false by simpa using hc]

theorem sorted_sortStable (key : Contributor → Nat) (l : List Contributor) :
    List.Sorted (fun a b => key b ≤ key a) (sortStable key l) := by
  haveI hT : IsTotal Contributor (fun a b => key b ≤ key a) :=
    ⟨fun a b => (Nat.le_total (key b) (key a)).imp id id⟩
  haveI hR : IsTrans Contributor (fun a b => key b ≤ key a) :=
    ⟨fun a b c hab hbc => le_trans hbc hab⟩
  exact List.sorted_insertionSort _ l

/-- C7: in reviews mode the reportable contributors are sorted by
`review_count` descending, and the sort is stable: for every key value,
the contributors holding that `review_count` appear in the same relative
order as in the reportable list, which itself is in record-creation
order (the dict appends a record when it is created and is never
reordered, and the reportable filter preserves that order). -/
theorem claim_C7_reviews_sort_stable (names : Nat → String)
    (ignored : List Nat) (changeLists : List (List Change)) :
    List.Sorted (fun a b => b.review_count ≤ a.review_count)
        (sortStable (·.review_count)
          (reportable (processRun names ignored changeLists).contributors)) ∧
      ∀ k : Nat,
        (sortStable (·.review_count)
            (reportable (processRun names ignored changeLists).contributors)).filter
              (fun c => c.review_count == k)
          = (reportable (processRun names ignored changeLists).contributors).filter
              (fun c => c.review_count == k) :=
  ⟨sorted_sortStable (·.review_count) _,
    fun k => filter_sortStable (·.review_count) k _⟩


/-! ### Reporter closed forms -/

theorem prefixSums_nil : prefixSums [] = [] := rfl

theorem prefixSums_cons (x : ℚ) (l : List ℚ) :
    prefixSums (x :: l) = x :: (prefixSums l).map (fun q => x + q) := by
  unfold prefixSums
  rw [List.length_cons, List.range_succ_eq_map]
  simp [List.map_map, Function.comp, List.take_succ_cons, List.sum_cons]

theorem reportLinesAux_map_lineData (key : Contributor → Nat) (T : Nat) :
    ∀ (l : List Contributor) (i : Nat) (run : ℚ),
    (reportLinesAux key T i run l).map lineData
      = ((l.enumFrom i).filter (fun p => key p.2 != 0)).map
          (fun p => (p.1, pyReplaceCommaSpace p.2.name, key p.2,
            (key p.2 : ℚ) / (T : ℚ))) := by
  intro l
  induction l with
  | nil => intro i run; rfl
  | cons c cs ih =>
    intro i run
    simp only [reportLinesAux, List.enumFrom, List.filter]
    by_cases h : key c = 0
    · rw [if_neg (by simpa using h)]
      rw [show (key c != 0) = false by simpa using h]
      exact ih (i + 1) run
    · rw [if_pos h]
      rw [show (key c != 0) = true by simpa using h]
      simp only [List.map_cons, lineData]
      rw [ih (i + 1) (run + (key c : ℚ) / (T : ℚ))]

theorem reportLinesAux_map_cum (key : Contributor → Nat) (T : Nat) :
    ∀ (l : List Contributor) (i : Nat) (run : ℚ),
    (reportLinesAux key T i run l).map (·.cum)
      = (prefixSums ((l.filter (fun c => key c != 0)).map
          (fun c => (key c : ℚ) / (T : ℚ)))).map (fun q => run + q) := by
  intro l
  induction l with
  | nil => intro i run; rfl
  | cons c cs ih =>
    intro i run
    simp only [reportLinesAux, List.filter]
    by_cases h : key c = 0
    · rw [if_neg (by simpa using h)]
      rw [show (key c != 0) = false by simpa using h]
      exact ih (i + 1) run
    · rw [if_pos h]
      rw [show (key c != 0) = true by simpa using h]
      simp only [List.map_cons]
      rw [ih (i + 1) (run + (key c : ℚ) / (T : ℚ)), prefixSums_cons]
      simp [List.map_map, Function.comp, add_assoc]

theorem sum_map_div (key : Contributor → Nat) (T : ℚ) (l : List Contributor) :
    (l.map (fun c => (key c : ℚ) / T)).sum
      = (l.map (fun c => (key c : ℚ))).sum / T := by
  induction l with
  | nil => simp
  | cons c t ih => simp [List.sum_cons, ih, add_div]

theorem prefixSums_getLast (l : List ℚ) (h : l ≠ []) :
    (prefixSums l).getLast? = some l.sum := by
  unfold prefixSums
  obtain ⟨k, hk⟩ : ∃ k, l.length = k + 1 := by
    cases hl : l with
    | nil => exact absurd hl h
    | cons a t => exact ⟨t.length, by simp⟩
  rw [hk, List.range_succ, List.map_append]
  simp only [List.map_cons, List.map_nil]
  rw [List.getLast?_concat]
  congr 1
  rw [← hk, List.take_length]

theorem reportLines_last_cum (key : Contributor → Nat) (T : Nat)
    (l : List Contributor) (hne : l ≠ [])
    (hpos : ∀ c ∈ l, key c ≠ 0)
    (hT : (l.map key).sum = T) (hT0 : T ≠ 0) :
    ∃ ln, (reportLines key T l).getLast? = some ln ∧ ln.cum = 1 := by
  have hfilter : l.filter (fun c => key c != 0) = l :=
    List.filter_eq_self.mpr (fun c hc => by simpa using hpos c hc)
  have hcum := reportLinesAux_map_cum key T l 1 0
  rw [hfilter] at hcum
  simp only [zero_add] at hcum
  rw [List.map_id'] at hcum
  have hne2 : l.map (fun c => (key c : ℚ) / (T : ℚ)) ≠ [] := by
    cases l with
    | nil => exact absurd rfl hne
    | cons a t => simp
  have hlast := prefixSums_getLast _ hne2
  have hopt : (reportLinesAux key T 1 0 l).getLast?.map (·.cum)
      = some ((l.map (fun c => (key c : ℚ) / (T : ℚ))).sum) := by
    rw [← List.getLast?_map, hcum, hlast]
  obtain ⟨ln, hln, hc⟩ := Option.map_eq_some'.mp hopt
  refine ⟨ln, hln, ?_⟩
  rw [hc, sum_map_div]
  have hcast : (l.map (fun c => (key c : ℚ))).sum = ((l.map key).sum : ℚ) := by
    rw [Nat.cast_list_sum, List.map_map]
    rfl
  rw [hcast, hT]
  exact div_self (Nat.cast_ne_zero.mpr hT0)

theorem sumReviews_reportable (m : List Contributor) :
    sumReviews (reportable m) = sumReviews m := by
  unfold reportable
  induction m with
  | nil => rfl
  | cons c t ih =>
    simp only [List.filter]
    cases hc : (decide (c.review_count > 0) || decide (c.commits > 0)) with
    | false =>
      have h0 : c.review_count = 0 := by
        simp only [Bool.or_eq_false_iff, decide_eq_false_iff_not] at hc
        omega
      simp only [sumReviews, List.map_cons, List.sum_cons] at ih ⊢
      rw [h0, ih]
      omega
    | true =>
      simp only [sumReviews, List.map_cons, List.sum_cons] at ih ⊢
      rw [ih]

theorem sumCommits_reportable (m : List Contributor) :
    sumCommits (reportable m) = sumCommits m := by
  unfold reportable
  induction m with
  | nil => rfl
  | cons c t ih =>
    simp only [List.filter]
    cases hc : (decide (c.review_count > 0) || decide (c.commits > 0)) with
    | false =>
      have h0 : c.commits = 0 := by
        simp only [Bool.or_eq_false_iff, decide_eq_false_iff_not] at hc
        omega
      simp only [sumCommits, List.map_cons, List.sum_cons] at ih ⊢
      rw [h0, ih]
      omega
    | true =>
      simp only [sumCommits, List.map_cons, List.sum_cons] at ih ⊢
      rw [ih]

theorem sortStable_perm (key : Contributor → Nat) (l : List Contributor) :
    (sortStable key l).Perm l :=
  List.perm_insertionSort _ l

theorem sortStable_sum_key (key : Contributor → Nat) (l : List Contributor) :
    ((sortStable key l).map key).sum = (l.map key).sum :=
  ((sortStable_perm key l).map key).sum_eq


/-! ### Claims C6 and C8 -/

/-- Concrete change used by witnesses: change 10, owner account 1,
3 insertions, 1 deletion, one review message by account 2. -/
def chCross1 : Change := ⟨10, 1, 3, 1, [⟨some 2⟩]⟩

/-- Concrete change used by witnesses: change 11, owner account 2,
2 insertions, 2 deletions, one review message by account 1. -/
def chCross2 : Change := ⟨11, 2, 2, 2, [⟨some 1⟩]⟩

/-- Concrete name environment for witnesses. -/
def namesW : Nat → String := fun n => if n = 1 then "alice" else "bob"

/-- Concrete change whose review author's display name contains a
comma: owner account 1, one message by account 2. -/
def chComma : Change := ⟨1, 1, 0, 0, [⟨some 2⟩]⟩

/-- C6 as stated is false on the code: with one reportable reviewer
whose display name is `x,y`, reviews mode emits the name `x y` — the
comma is replaced by a space — whereas the name with commas removed
would be `xy`. -/
theorem claim_C6_counterexample :
    (reviewsReport (fun _ => "x,y") [] [[chComma]]).map (·.name) = ["x y"] ∧
      stripCommasSpec "x,y" = "xy" ∧ ("x y" : String) ≠ "xy" :=
  ⟨by decide, by decide, by decide⟩

/-- C6 amended: each emitted line consists of the 1-based rank (the
position in the sorted list, counting skipped zero-count entries), the
name with each comma replaced by a space (not removed), the count, and
the count divided by the total; and the running cumulative fields are
exactly the prefix sums of the emitted shares.  Commits mode has the
identical structure keyed on `commits` and `total_commits`. -/
theorem claim_C6_line_structure (names : Nat → String) (ignored : List Nat)
    (changeLists : List (List Change)) :
    ((reviewsReport names ignored changeLists).map lineData
        = (((sortStable (·.review_count)
              (reportable (processRun names ignored changeLists).contributors)).enumFrom
                1).filter (fun p => p.2.review_count != 0)).map
            (fun p => (p.1, pyReplaceCommaSpace p.2.name, p.2.review_count,
              (p.2.review_count : ℚ)
                / (finalTotalReviews (processRun names ignored changeLists) : ℚ))) ∧
      (reviewsReport names ignored changeLists).map (·.cum)
        = prefixSums (((sortStable (·.review_count)
              (reportable (processRun names ignored changeLists).contributors)).filter
            (fun c => c.review_count != 0)).map
            (fun c => (c.review_count : ℚ)
              / (finalTotalReviews (processRun names ignored changeLists) : ℚ)))) ∧
    ((commitsReport names ignored changeLists).map lineData
        = (((sortStable (·.commits)
              (reportable (processRun names ignored changeLists).contributors)).enumFrom
                1).filter (fun p => p.2.commits != 0)).map
            (fun p => (p.1, pyReplaceCommaSpace p.2.name, p.2.commits,
              (p.2.commits : ℚ)
                / ((processRun names ignored changeLists).total_commits : ℚ))) ∧
      (commitsReport names ignored changeLists).map (·.cum)
        = prefixSums (((sortStable (·.commits)
              (reportable (processRun names ignored changeLists).contributors)).filter
            (fun c => c.commits != 0)).map
            (fun c => (c.commits : ℚ)
              / ((processRun names ignored changeLists).total_commits : ℚ)))) := by
  refine ⟨⟨?_, ?_⟩, ?_, ?_⟩
  · exact reportLinesAux_map_lineData (·.review_count)
      (finalTotalReviews (processRun names ignored changeLists)) _ 1 0
  · have h := reportLinesAux_map_cum (·.review_count)
      (finalTotalReviews (processRun names ignored changeLists))
      (sortStable (·.review_count)
        (reportable (processRun names ignored changeLists).contributors)) 1 0
    simp only [zero_add] at h
    rw [List.map_id'] at h
    exact h
  · exact reportLinesAux_map_lineData (·.commits)
      (processRun names ignored changeLists).total_commits _ 1 0
  · have h := reportLinesAux_map_cum (·.commits)
      (processRun names ignored changeLists).total_commits
      (sortStable (·.commits)
        (reportable (processRun names ignored changeLists).contributors)) 1 0
    simp only [zero_add] at h
    rw [List.map_id'] at h
    exact h

/-- C8: in reviews mode (respectively commits mode), when the reportable
list is nonempty and every reportable contributor has a positive
review count (respectively positive commit count), the running
cumulative share on the last emitted line is exactly 1 — in exact
rational arithmetic, since the denominator equals the sum of the
printed numerators. -/
theorem claim_C8_last_cumulative_one (names : Nat → String)
    (ignored : List Nat) (changeLists : List (List Change)) :
    ((reportable (processRun names ignored changeLists).contributors ≠ [] →
      (∀ c ∈ reportable (processRun names ignored changeLists).contributors,
        0 < c.review_count) →
      ∃ ln, (reviewsReport names ignored changeLists).getLast? = some ln ∧
        ln.cum = 1)) ∧
    ((reportable (processRun names ignored changeLists).contributors ≠ [] →
      (∀ c ∈ reportable (processRun names ignored changeLists).contributors,
        0 < c.commits) →
      ∃ ln, (commitsReport names ignored changeLists).getLast? = some ln ∧
        ln.cum = 1)) := by
  have hInv := processRun_inv names ignored changeLists
  constructor
  · intro hne hpos
    have hperm := sortStable_perm (·.review_count)
      (reportable (processRun names ignored changeLists).contributors)
    have hT : ((sortStable (·.review_count)
          (reportable (processRun names ignored changeLists).contributors)).map
          (·.review_count)).sum
        = finalTotalReviews (processRun names ignored changeLists) := by
      rw [sortStable_sum_key]
      show sumReviews _ = _
      rw [sumReviews_reportable, finalTotalReviews_eq, hInv.2.2.2, Nat.zero_add]
    have hpos2 : ∀ c ∈ sortStable (·.review_count)
        (reportable (processRun names ignored changeLists).contributors),
        c.review_count ≠ 0 :=
      fun c hc => Nat.pos_iff_ne_zero.mp (hpos c (hperm.mem_iff.mp hc))
    have hne2 : sortStable (·.review_count)
        (reportable (processRun names ignored changeLists).contributors) ≠ [] := by
      intro h0
      apply hne
      have hl := hperm.length_eq
      rw [h0] at hl
      exact List.length_eq_zero.mp hl.symm
    have hT0 : finalTotalReviews (processRun names ignored changeLists) ≠ 0 := by
      rw [← hT]
      cases hsort : sortStable (·.review_count)
          (reportable (processRun names ignored changeLists).contributors) with
      | nil => exact absurd hsort hne2
      | cons a t =>
        have ha : a.review_count ≠ 0 :=
          hpos2 a (hsort ▸ List.mem_cons_self a t)
        simp only [hsort, List.map_cons, List.sum_cons]
        omega
    exact reportLines_last_cum (·.review_count) _ _ hne2 hpos2 hT hT0
  · intro hne hpos
    have hperm := sortStable_perm (·.commits)
      (reportable (processRun names ignored changeLists).contributors)
    have hT : ((sortStable (·.commits)
          (reportable (processRun names ignored changeLists).contributors)).map
          (·.commits)).sum
        = (processRun names ignored changeLists).total_commits := by
      rw [sortStable_sum_key]
      show sumCommits _ = _
      rw [sumCommits_reportable, hInv.2.2.1]
    have hpos2 : ∀ c ∈ sortStable (·.commits)
        (reportable (processRun names ignored changeLists).contributors),
        c.commits ≠ 0 :=
      fun c hc => Nat.pos_iff_ne_zero.mp (hpos c (hperm.mem_iff.mp hc))
    have hne2 : sortStable (·.commits)
        (reportable (processRun names ignored changeLists).contributors) ≠ [] := by
      intro h0
      apply hne
      have hl := hperm.length_eq
      rw [h0] at hl
      exact List.length_eq_zero.mp hl.symm
    have hT0 : (processRun names ignored changeLists).total_commits ≠ 0 := by
      rw [← hT]
      cases hsort : sortStable (·.commits)
          (reportable (processRun names ignored changeLists).contributors) with
      | nil => exact absurd hsort hne2
      | cons a t =>
        have ha : a.commits ≠ 0 :=
          hpos2 a (hsort ▸ List.mem_cons_self a t)
        simp only [hsort, List.map_cons, List.sum_cons]
        omega
    exact reportLines_last_cum (·.commits) _ _ hne2 hpos2 hT hT0

/-- C8 witness: a two-change run (owners 1 and 2, each reviewing the
other) in which every reportable contributor has positive counts of
both kinds; both reports end with cumulative share exactly 1. -/
theorem claim_C8_witness :
    (∃ ln, (reviewsReport namesW [] [[chCross1, chCross2]]).getLast? = some ln ∧
      ln.cum = 1) ∧
    (∃ ln, (commitsReport namesW [] [[chCross1, chCross2]]).getLast? = some ln ∧
      ln.cum = 1) :=
  ⟨(claim_C8_last_cumulative_one namesW [] [[chCross1, chCross2]]).1
      (by decide) (by decide),
   (claim_C8_last_cumulative_one namesW [] [[chCross1, chCross2]]).2
      (by decide) (by decide)⟩


/-! ### Claim C5 -/

theorem pySliceFrom_append (p s : String) (h : p.data.length = 4) :
    pySliceFrom (p ++ s) 4 = s := by
  rcases p with ⟨pd⟩
  rcases s with ⟨sd⟩
  simp only [pySliceFrom]
  have hdata : (String.mk pd ++ String.mk sd).data = pd ++ sd := rfl
  rw [hdata]
  have h2 : pd.length = 4 := h
  rw [← h2, List.drop_left]

/-- C5 as stated is false on the code: the body `XXXXnull` does not
begin with the anti-XSSI guard, yet `response_body_to_json` decodes it
successfully, while the spec-modelled `checkedParse` (which verifies the
guard, as the claim describes) rejects it.  The code never fails on a
missing guard. -/
theorem claim_C5_counterexample :
    (response_body_to_json "XXXXnull").isSome = true ∧
      xssiMagic.data.isPrefixOf ("XXXXnull" : String).data = false ∧
      (checkedParse "XXXXnull").isSome = false :=
  ⟨by decide, by decide, by decide⟩

/-- C5 amended: the parsing step slices off the first four characters of
the body unconditionally — whatever they are, with no check against the
anti-XSSI guard — and then JSON-decodes the remainder, so it fails
exactly when that remainder is not valid JSON. -/
theorem claim_C5_strip_four_then_decode (p s : String)
    (h : p.data.length = 4) :
    response_body_to_json (p ++ s) = jsonLoads s := by
  rw [response_body_to_json, pySliceFrom_append p s h]

/-- C5 witness: the genuine guard is four characters long, and a guarded
body decodes as its JSON remainder does. -/
theorem claim_C5_witness :
    xssiMagic.data.length = 4 ∧
      response_body_to_json (xssiMagic ++ "null") = jsonLoads "null" :=
  ⟨by decide, claim_C5_strip_four_then_decode xssiMagic "null" (by decide)⟩


/-! ### Per-branch equations for C4 and C10 -/

theorem processMessage_create (n : Nat → String) (i : List Nat) (o : Nat)
    (s : AggState) (a : Nat) (ha0 : a ≠ 0) (hao : a ≠ o)
    (hm : memberC s.contributors a = false) (hi : a ∉ i) :
    processMessage n i o s ⟨some a⟩
      = { s with contributors := s.contributors ++ [⟨a, n a, 1, 0⟩] } := by
  simp only [processMessage]
  rw [if_pos ⟨ha0, hao⟩, if_pos ⟨hm, hi⟩]

theorem processMessage_bump (n : Nat → String) (i : List Nat) (o : Nat)
    (s : AggState) (a : Nat) (ha0 : a ≠ 0) (hao : a ≠ o)
    (hm : memberC s.contributors a = true) :
    processMessage n i o s ⟨some a⟩
      = { s with contributors := updateC s.contributors a (fun c => { c with review_count := c.review_count + 1 }) } := by
  simp only [processMessage]
  rw [if_pos ⟨ha0, hao⟩, if_neg (by rintro ⟨h1, _⟩; rw [hm] at h1; cases h1),
    if_pos hm]

theorem processMessage_skip_ignored (n : Nat → String) (i : List Nat) (o : Nat)
    (s : AggState) (a : Nat) (hm : memberC s.contributors a = false)
    (hi : a ∈ i) :
    processMessage n i o s ⟨some a⟩ = s := by
  simp only [processMessage]
  split
  · rw [if_neg (by rintro ⟨_, h2⟩; exact h2 hi),
      if_neg (by rw [hm]; simp)]
  · rfl

theorem rcOf_append_member (m : List Contributor) (e : Contributor) (b : Nat)
    (h : memberC m b = true) : rcOf (m ++ [e]) b = rcOf m b := by
  unfold rcOf lookupC
  rw [List.find?_append]
  cases hfind : List.find? (fun c => decide (c.account_id = b)) m with
  | none => unfold memberC lookupC at h; rw [hfind] at h; cases h
  | some c => rfl

theorem rcOf_processMessage_hit (n : Nat → String) (i : List Nat) (o : Nat)
    (s : AggState) (a : Nat) (ha0 : a ≠ 0) (hao : a ≠ o) (hi : a ∉ i) :
    rcOf (processMessage n i o s ⟨some a⟩).contributors a
      = rcOf s.contributors a + 1 := by
  cases hm : memberC s.contributors a with
  | false =>
    rw [processMessage_create n i o s a ha0 hao hm hi]
    show rcOf (s.contributors ++ [⟨a, n a, 1, 0⟩]) a = _
    rw [rcOf_append_self s.contributors _ a hm rfl, rcOf_of_not_member _ a hm]
  | true =>
    rw [processMessage_bump n i o s a ha0 hao hm]
    exact rcOf_updateC_rc_self s.contributors a hm

theorem rcOf_ownerAccounting_ne (n : Nat → String) (i : List Nat)
    (ch : Change) (s : AggState) (b : Nat) (hb : b ≠ ch.owner) :
    rcOf (ownerAccounting n i ch s).contributors b = rcOf s.contributors b := by
  unfold ownerAccounting
  split
  · exact rcOf_append_ne s.contributors _ b (fun he => hb he.symm)
  · split
    · exact rcOf_updateC_commit s.contributors ch.owner b
    · rfl

theorem memberC_ownerAccounting_ne (n : Nat → String) (i : List Nat)
    (ch : Change) (s : AggState) (b : Nat) (hb : b ≠ ch.owner) :
    memberC (ownerAccounting n i ch s).contributors b
      = memberC s.contributors b := by
  unfold ownerAccounting
  split
  · rw [memberC_append]
    simp [show ch.owner ≠ b from fun he => hb he.symm]
  · split
    · exact memberC_updateC s.contributors ch.owner
        (fun c => { c with commits := c.commits + 1 }) (fun c => rfl) b
    · rfl

theorem ownerAccounting_create (n : Nat → String) (i : List Nat)
    (ch : Change) (s : AggState)
    (hm : memberC s.contributors ch.owner = false) (hi : ch.owner ∉ i) :
    ownerAccounting n i ch s
      = { s with
          contributors := s.contributors ++ [⟨ch.owner, n ch.owner, 0, 1⟩],
          total_commits := s.total_commits + 1 } := by
  unfold ownerAccounting
  rw [if_pos ⟨hm, hi⟩]

theorem ownerAccounting_bump (n : Nat → String) (i : List Nat)
    (ch : Change) (s : AggState)
    (hm : memberC s.contributors ch.owner = true) :
    ownerAccounting n i ch s
      = { s with contributors := updateC s.contributors ch.owner (fun c => { c with commits := c.commits + 1 }), total_commits := s.total_commits + 1 } := by
  unfold ownerAccounting
  rw [if_neg (by rintro ⟨h1, _⟩; rw [hm] at h1; cases h1), if_pos hm]

theorem ownerAccounting_skip (n : Nat → String) (i : List Nat)
    (ch : Change) (s : AggState)
    (hm : memberC s.contributors ch.owner = false) (hi : ch.owner ∈ i) :
    ownerAccounting n i ch s = s := by
  unfold ownerAccounting
  rw [if_neg (by rintro ⟨_, h2⟩; exact h2 hi), if_neg (by rw [hm]; simp)]

theorem ownerAccounting_tc_not_ignored (n : Nat → String) (i : List Nat)
    (ch : Change) (s : AggState) (hi : ch.owner ∉ i) :
    (ownerAccounting n i ch s).total_commits = s.total_commits + 1 := by
  cases hm : memberC s.contributors ch.owner with
  | false => rw [ownerAccounting_create n i ch s hm hi]
  | true => rw [ownerAccounting_bump n i ch s hm]

theorem processMessages_tc (n : Nat → String) (i : List Nat) (o : Nat)
    (msgs : List Message) (s : AggState) :
    (processMessages n i o s msgs).total_commits = s.total_commits := by
  obtain ⟨m, hm⟩ := processMessages_shape n i o msgs s
  rw [hm]

theorem acctChange_total_additions (n : Nat → String) (i : List Nat)
    (s : AggState) (ch : Change) :
    (acctChange n i s ch).total_additions = s.total_additions := by
  obtain ⟨m, k, h⟩ := acctChange_shape n i s ch
  rw [h]

theorem acctChange_total_deletions (n : Nat → String) (i : List Nat)
    (s : AggState) (ch : Change) :
    (acctChange n i s ch).total_deletions = s.total_deletions := by
  obtain ⟨m, k, h⟩ := acctChange_shape n i s ch
  rw [h]

theorem memberC_processMessage_preserved (n : Nat → String) (i : List Nat)
    (o : Nat) (s : AggState) (msg : Message) (x : Nat)
    (h : memberC s.contributors x = true) :
    memberC (processMessage n i o s msg).contributors x = true := by
  rcases msg with ⟨_ | a⟩
  · exact h
  · simp only [processMessage]
    split
    · split
      · rw [memberC_append, h]
        rfl
      · split
        · show memberC (updateC s.contributors a
            (fun c => { c with review_count := c.review_count + 1 })) x = true
          rw [memberC_updateC s.contributors a
            (fun c => { c with review_count := c.review_count + 1 })
            (fun c => rfl) x]
          exact h
        · exact h
    · exact h

theorem memberC_processMessages_preserved (n : Nat → String) (i : List Nat)
    (o : Nat) (msgs : List Message) :
    ∀ (s : AggState) (x : Nat), memberC s.contributors x = true →
    memberC (processMessages n i o s msgs).contributors x = true := by
  induction msgs with
  | nil => intro s x h; exact h
  | cons msg t ih =>
    intro s x h
    rw [processMessages, List.foldl_cons, ← processMessages]
    exact ih _ x (memberC_processMessage_preserved n i o s msg x h)

theorem memberC_processMessage_owner (n : Nat → String) (i : List Nat)
    (o : Nat) (s : AggState) (msg : Message) :
    memberC (processMessage n i o s msg).contributors o
      = memberC s.contributors o := by
  rcases msg with ⟨_ | a⟩
  · rfl
  · simp only [processMessage]
    split
    · rename_i hcond
      split
      · rw [memberC_append]
        simp [show a ≠ o from hcond.2]
      · split
        · exact memberC_updateC s.contributors a
            (fun c => { c with review_count := c.review_count + 1 })
            (fun c => rfl) o
        · rfl
    · rfl

theorem memberC_processMessages_owner (n : Nat → String) (i : List Nat)
    (o : Nat) (msgs : List Message) :
    ∀ s : AggState,
    memberC (processMessages n i o s msgs).contributors o
      = memberC s.contributors o := by
  induction msgs with
  | nil => intro s; rfl
  | cons msg t ih =>
    intro s
    rw [processMessages, List.foldl_cons, ← processMessages]
    rw [ih _, memberC_processMessage_owner]


/-! ### Claim C4 -/

/-- Repository entry used by the C4 witness. -/
def repoW : Repo := ⟨"nova", "2019-04-10", "2018-08-30", true⟩

/-- C4: `get_merged_reviews_for_repository` returns the default-branch
query result followed, when `stable_branch` is set, by the stable-branch
query result, concatenated with no deduplication; consequently a change
present in both result sets is processed twice: its insertions and
deletions enter the totals twice, its (non-ignored) owner books two
commit events, and a (non-ignored, non-owner) author of its message
thread is credited twice. -/
theorem claim_C4_concat_no_dedup (fetch : String → List Change)
    (repo : Repo) (release_name : String) (names : Nat → String)
    (ignored : List Nat) (s : AggState) (ch : Change) (a : Nat)
    (hmsgs : ch.messages = [⟨some a⟩])
    (hOwnIg : ch.owner ∉ ignored)
    (ha0 : a ≠ 0) (hao : a ≠ ch.owner) (hai : a ∉ ignored) :
    get_merged_reviews_for_repository fetch repo release_name
        = fetch (masterUrl repo) ++
          (if repo.stable_branch then fetch (stableUrl repo release_name)
           else []) ∧
      (processRepository names ignored [ch, ch] s).total_additions
        = s.total_additions + 2 * ch.insertions ∧
      (processRepository names ignored [ch, ch] s).total_deletions
        = s.total_deletions + 2 * ch.deletions ∧
      (processRepository names ignored [ch, ch] s).total_commits
        = s.total_commits + 2 ∧
      rcOf (processRepository names ignored [ch, ch] s).contributors a
        = rcOf s.contributors a + 2 := by
  have hfold : [ch, ch].foldl (acctChange names ignored) s
      = acctChange names ignored (acctChange names ignored s ch) ch := rfl
  have htc1 : (acctChange names ignored s ch).total_commits
      = s.total_commits + 1 := by
    rw [acctChange, processMessages_tc,
      ownerAccounting_tc_not_ignored names ignored ch s hOwnIg]
  have htc2 : (acctChange names ignored (acctChange names ignored s ch)
        ch).total_commits
      = (acctChange names ignored s ch).total_commits + 1 := by
    rw [acctChange, processMessages_tc,
      ownerAccounting_tc_not_ignored names ignored ch _ hOwnIg]
  have hrc1 : rcOf (acctChange names ignored s ch).contributors a
      = rcOf s.contributors a + 1 := by
    rw [acctChange, hmsgs]
    show rcOf (processMessage names ignored ch.owner
      (ownerAccounting names ignored ch s) ⟨some a⟩).contributors a = _
    rw [rcOf_processMessage_hit names ignored ch.owner _ a ha0 hao hai,
      rcOf_ownerAccounting_ne names ignored ch s a hao]
  have hrc2 : rcOf (acctChange names ignored (acctChange names ignored s ch)
        ch).contributors a
      = rcOf (acctChange names ignored s ch).contributors a + 1 := by
    rw [acctChange, hmsgs]
    show rcOf (processMessage names ignored ch.owner
      (ownerAccounting names ignored ch
        (acctChange names ignored s ch)) ⟨some a⟩).contributors a = _
    rw [rcOf_processMessage_hit names ignored ch.owner _ a ha0 hao hai,
      rcOf_ownerAccounting_ne names ignored ch _ a hao]
  refine ⟨?_, ?_, ?_, ?_, ?_⟩
  · unfold get_merged_reviews_for_repository
    by_cases hb : repo.stable_branch <;> simp [hb]
  · rw [processRepository_eq]
    show ([ch, ch].foldl (acctChange names ignored) s).total_additions
      + sumIns [ch, ch] = s.total_additions + 2 * ch.insertions
    rw [hfold, acctChange_total_additions, acctChange_total_additions]
    simp [sumIns]
    ring
  · rw [processRepository_eq]
    show ([ch, ch].foldl (acctChange names ignored) s).total_deletions
      + sumDels [ch, ch] = s.total_deletions + 2 * ch.deletions
    rw [hfold, acctChange_total_deletions, acctChange_total_deletions]
    simp [sumDels]
    ring
  · rw [processRepository_eq]
    show ([ch, ch].foldl (acctChange names ignored) s).total_commits
      = s.total_commits + 2
    rw [hfold, htc2, htc1]
  · rw [processRepository_eq]
    show rcOf ([ch, ch].foldl (acctChange names ignored) s).contributors a
      = rcOf s.contributors a + 2
    rw [hfold, hrc2, hrc1]

/-- C4 witness: a stable-branch repository and a concrete change (owner
1, one message by account 2) processed twice from the initial state. -/
theorem claim_C4_witness :
    get_merged_reviews_for_repository (fun _ => [chCross1]) repoW "stein"
        = (fun _ => [chCross1]) (masterUrl repoW) ++
          (if repoW.stable_branch
           then (fun _ => [chCross1]) (stableUrl repoW "stein") else []) ∧
      (processRepository namesW [] [chCross1, chCross1]
          initState).total_additions
        = initState.total_additions + 2 * chCross1.insertions ∧
      (processRepository namesW [] [chCross1, chCross1]
          initState).total_deletions
        = initState.total_deletions + 2 * chCross1.deletions ∧
      (processRepository namesW [] [chCross1, chCross1]
          initState).total_commits
        = initState.total_commits + 2 ∧
      rcOf (processRepository namesW [] [chCross1, chCross1]
          initState).contributors 2
        = rcOf initState.contributors 2 + 2 :=
  claim_C4_concat_no_dedup (fun _ => [chCross1]) repoW "stein" namesW []
    initState chCross1 2 (by decide) (by decide) (by decide) (by decide)
    (by decide)


/-! ### Claim C10 -/

/-- Two contributor dicts agree off an id: every other id has the same
membership and the same credited review count in both. -/
def AgreeOff (x : Nat) (m m₂ : List Contributor) : Prop :=
  ∀ b, b ≠ x → memberC m b = memberC m₂ b ∧ rcOf m b = rcOf m₂ b

theorem AgreeOff_append_same (x : Nat) (m m₂ : List Contributor)
    (h : AgreeOff x m m₂) (e : Contributor) :
    AgreeOff x (m ++ [e]) (m₂ ++ [e]) := by
  intro b hb
  obtain ⟨h1, h2⟩ := h b hb
  refine ⟨by rw [memberC_append, memberC_append, h1], ?_⟩
  by_cases he : e.account_id = b
  · cases hm : memberC m b with
    | true =>
      rw [rcOf_append_member m e b hm,
        rcOf_append_member m₂ e b (by rw [← h1]; exact hm)]
      exact h2
    | false =>
      rw [rcOf_append_self m e b hm he,
        rcOf_append_self m₂ e b (by rw [← h1]; exact hm) he]
  · rw [rcOf_append_ne m e b he, rcOf_append_ne m₂ e b he]
    exact h2

theorem AgreeOff_updateC_rc (x : Nat) (m m₂ : List Contributor)
    (h : AgreeOff x m m₂) (y : Nat) :
    AgreeOff x
      (updateC m y (fun c => { c with review_count := c.review_count + 1 }))
      (updateC m₂ y (fun c => { c with review_count := c.review_count + 1 })) := by
  intro b hb
  obtain ⟨h1, h2⟩ := h b hb
  constructor
  · rw [memberC_updateC m y
      (fun c => { c with review_count := c.review_count + 1 }) (fun c => rfl) b,
      memberC_updateC m₂ y
      (fun c => { c with review_count := c.review_count + 1 }) (fun c => rfl) b]
    exact h1
  · by_cases hyb : y = b
    · subst hyb
      cases hm : memberC m y with
      | true =>
        rw [rcOf_updateC_rc_self m y hm,
          rcOf_updateC_rc_self m₂ y (by rw [← h1]; exact hm), h2]
      | false =>
        rw [updateC_of_not_member m y _ hm,
          updateC_of_not_member m₂ y _ (by rw [← h1]; exact hm)]
        exact h2
    · rw [rcOf_updateC_ne m y
        (fun c => { c with review_count := c.review_count + 1 })
        (fun c => rfl) b hyb,
        rcOf_updateC_ne m₂ y
        (fun c => { c with review_count := c.review_count + 1 })
        (fun c => rfl) b hyb]
      exact h2

theorem processMessage_AgreeOff (n : Nat → String) (ig ig₂ : List Nat)
    (x : Nat) (s s₂ : AggState) (msg : Message)
    (hig : ∀ b, b ≠ x → (b ∈ ig ↔ b ∈ ig₂))
    (h : AgreeOff x s.contributors s₂.contributors) :
    AgreeOff x (processMessage n ig x s msg).contributors
      (processMessage n ig₂ x s₂ msg).contributors := by
  rcases msg with ⟨_ | a⟩
  · exact h
  · by_cases hcond : a ≠ 0 ∧ a ≠ x
    · obtain ⟨ha0, hax⟩ := hcond
      have hmEq := (h a hax).1
      have higA := hig a hax
      cases hm : memberC s.contributors a with
      | false =>
        have hm2 : memberC s₂.contributors a = false := by
          rw [← hmEq]; exact hm
        by_cases hin : a ∈ ig
        · rw [processMessage_skip_ignored n ig x s a hm hin,
            processMessage_skip_ignored n ig₂ x s₂ a hm2 (higA.mp hin)]
          exact h
        · rw [processMessage_create n ig x s a ha0 hax hm hin,
            processMessage_create n ig₂ x s₂ a ha0 hax hm2
              (fun hc => hin (higA.mpr hc))]
          exact AgreeOff_append_same x _ _ h _
      | true =>
        have hm2 : memberC s₂.contributors a = true := by
          rw [← hmEq]; exact hm
        rw [processMessage_bump n ig x s a ha0 hax hm,
          processMessage_bump n ig₂ x s₂ a ha0 hax hm2]
        exact AgreeOff_updateC_rc x _ _ h a
    · have e1 : processMessage n ig x s ⟨some a⟩ = s := by
        simp only [processMessage]
        rw [if_neg hcond]
      have e2 : processMessage n ig₂ x s₂ ⟨some a⟩ = s₂ := by
        simp only [processMessage]
        rw [if_neg hcond]
      rw [e1, e2]
      exact h

theorem processMessages_AgreeOff (n : Nat → String) (ig ig₂ : List Nat)
    (x : Nat) (hig : ∀ b, b ≠ x → (b ∈ ig ↔ b ∈ ig₂)) :
    ∀ (msgs : List Message) (s s₂ : AggState),
    AgreeOff x s.contributors s₂.contributors →
    AgreeOff x (processMessages n ig x s msgs).contributors
      (processMessages n ig₂ x s₂ msgs).contributors := by
  intro msgs
  induction msgs with
  | nil => intro s s₂ h; exact h
  | cons msg t ih =>
    intro s s₂ h
    show AgreeOff x
      (processMessages n ig x (processMessage n ig x s msg) t).contributors
      (processMessages n ig₂ x (processMessage n ig₂ x s₂ msg) t).contributors
    exact ih _ _ (processMessage_AgreeOff n ig ig₂ x s s₂ msg hig h)

/-- C10: for a change whose owner is in the ignored set (and has no
record yet, as the run invariant guarantees), the change's insertions
and deletions are still accumulated and the message thread is still
processed; the global commit count is untouched; and every non-owner
account ends up with exactly the review count it would have if the
owner were not ignored — only the owner's commit accounting is
skipped. -/
theorem claim_C10_ignored_owner_still_counts (names : Nat → String)
    (ignored : List Nat) (ch : Change) (pa pd : Int) (s : AggState)
    (hIg : ch.owner ∈ ignored)
    (hMem : memberC s.contributors ch.owner = false) :
    stepChange names ignored (pa, pd, s) ch
        = (pa + ch.insertions, pd + ch.deletions,
            processMessages names ignored ch.owner s ch.messages) ∧
      (stepChange names ignored (pa, pd, s) ch).2.2.total_commits
        = s.total_commits ∧
      ∀ b, b ≠ ch.owner →
        rcOf (stepChange names ignored (pa, pd, s) ch).2.2.contributors b
          = rcOf (stepChange names (ignored.filter (fun x => x ≠ ch.owner))
              (pa, pd, s) ch).2.2.contributors b := by
  have hskip : ownerAccounting names ignored ch s = s :=
    ownerAccounting_skip names ignored ch s hMem hIg
  have hstep1 : stepChange names ignored (pa, pd, s) ch
      = (pa + ch.insertions, pd + ch.deletions,
          processMessages names ignored ch.owner s ch.messages) := by
    show (pa + ch.insertions, pd + ch.deletions,
      acctChange names ignored s ch) = _
    rw [acctChange, hskip]
  refine ⟨hstep1, ?_, ?_⟩
  · rw [hstep1]
    exact processMessages_tc names ignored ch.owner ch.messages s
  · intro b hb
    rw [hstep1]
    show rcOf (processMessages names ignored ch.owner s ch.messages).contributors b
      = rcOf (acctChange names (ignored.filter (fun x => x ≠ ch.owner))
          s ch).contributors b
    have hIg2 : ch.owner ∉ ignored.filter (fun x => x ≠ ch.owner) := by
      intro hmem
      have := List.mem_filter.mp hmem
      simp at this
    rw [acctChange,
      ownerAccounting_create names (ignored.filter (fun x => x ≠ ch.owner))
        ch s hMem hIg2]
    have hbase : AgreeOff ch.owner s.contributors
        (s.contributors ++ [⟨ch.owner, names ch.owner, 0, 1⟩]) := by
      intro b2 hb2
      have hne : ch.owner ≠ b2 := fun he => hb2 he.symm
      constructor
      · rw [memberC_append]
        simp [hne]
      · exact (rcOf_append_ne s.contributors _ b2 hne).symm
    have hig : ∀ b2, b2 ≠ ch.owner →
        (b2 ∈ ignored ↔ b2 ∈ ignored.filter (fun x => x ≠ ch.owner)) := by
      intro b2 hb2
      rw [List.mem_filter]
      simp [hb2]
    exact (processMessages_AgreeOff names ignored
      (ignored.filter (fun x => x ≠ ch.owner)) ch.owner hig ch.messages s
      { s with
        contributors := s.contributors ++ [⟨ch.owner, names ch.owner, 0, 1⟩],
        total_commits := s.total_commits + 1 } hbase b hb).2

/-- C10 witness: owner 1 is ignored; its change still contributes its
line counts and its reviewer (account 2) is credited exactly as when 1
is not ignored; `total_commits` stays 0. -/
theorem claim_C10_witness :
    stepChange namesW [1] (0, 0, initState) chCross1
        = (0 + chCross1.insertions, 0 + chCross1.deletions,
            processMessages namesW [1] chCross1.owner initState
              chCross1.messages) ∧
      (stepChange namesW [1] (0, 0, initState) chCross1).2.2.total_commits
        = initState.total_commits ∧
      rcOf (stepChange namesW [1] (0, 0, initState) chCross1).2.2.contributors 2
        = rcOf (stepChange namesW ([1].filter (fun x => x ≠ chCross1.owner))
            (0, 0, initState) chCross1).2.2.contributors 2 := by
  have h := claim_C10_ignored_owner_still_counts namesW [1] chCross1 0 0
    initState (by decide) (by decide)
  exact ⟨h.1, h.2.1, h.2.2 2 (by decide)⟩

end Count
